import Mathlib

/-!
Verification of the name-transliteration resolver of
`Invitation-card-automation-WhatsApp` (`src/app.py`, function
`transliterate_to_gujarati`, lines 192-258, together with the
`ENGLISH_TO_GUJARATI` dictionary, lines 69-173).

Strings are modelled as Lean `String`s (lists of Unicode characters); the
remote Google-Translate call is an oracle parameter.  Python peculiarities
are embedded as follows:

* `str.lower()` lowercases ASCII `A`-`Z`; it is the identity on Gujarati
  characters.  We model exactly that (`toLowerCh`); inputs containing
  non-ASCII cased letters outside the Gujarati block are outside the scope
  of the repository's data.
* `str.strip()` removes leading and trailing whitespace; we model the ASCII
  whitespace characters (`pyStrip`).
* `re` word characters (`\w`) comprise ASCII alphanumerics, the underscore
  and (for the texts this program manipulates: ASCII and Gujarati letters)
  all non-ASCII characters; a word boundary `\b` sits between a word
  character and a non-word character or a string edge (`isWordChar`).
* `re.sub(r'\b' + key + r'\b', val, s, flags=re.IGNORECASE)` for the
  dictionary keys (nonempty, all ASCII letters, no metacharacters) scans
  `s` left to right, replacing each boundary-delimited case-insensitive
  occurrence of `key` and resuming after the matched span (`subAuxF`).
-/

set_option maxRecDepth 100000
set_option maxHeartbeats 4000000

namespace Invitation

/-- ASCII whitespace characters removed by Python `str.strip()`. -/
def isPySpace (c : Char) : Bool :=
  c == ' ' || c == '\t' || c == '\n' || c == '\r' || c == '\x0b' || c == '\x0c'

/-- Python `str.lower()` on one character: ASCII `A`-`Z` map to `a`-`z`,
everything else (in particular every Gujarati character) is unchanged. -/
def toLowerCh (c : Char) : Char :=
  if h : 65 ≤ c.toNat ∧ c.toNat ≤ 90 then
    Char.ofNatAux (c.toNat + 32) (Or.inl (by omega))
  else c

/-- Python `str.lower()` on a list of characters. -/
def lowerL (l : List Char) : List Char := l.map toLowerCh

/-- Python `str.strip()`: drop leading and trailing whitespace. -/
def pyStrip (l : List Char) : List Char :=
  ((l.dropWhile isPySpace).reverse.dropWhile isPySpace).reverse

/-- The cleaned text of the dictionary fallback:
`english_text.lower().strip()` (app.py line 245). -/
def pyClean (l : List Char) : List Char := pyStrip (lowerL l)

/-- A regex word character (`\w`): ASCII alphanumerics (digits `0`-`9`,
letters `A`-`Z` and `a`-`z`), the underscore, and non-ASCII characters
(exact for the ASCII/Gujarati-letter texts of this program). -/
def isWordChar (c : Char) : Bool :=
  (48 ≤ c.toNat && c.toNat ≤ 57) || (65 ≤ c.toNat && c.toNat ≤ 90) ||
    (97 ≤ c.toNat && c.toNat ≤ 122) || c == '_' || 128 ≤ c.toNat

/-- Membership in the Gujarati Unicode block U+0A80 - U+0AFF
(`ord(c) >= 0x0A80 and ord(c) <= 0x0AFF`, app.py lines 202 and 254). -/
def isGujarati (c : Char) : Bool :=
  0x0A80 ≤ c.toNat && c.toNat ≤ 0x0AFF

/-- `any(0x0A80 <= ord(c) <= 0x0AFF for c in s)`. -/
def containsGujaratiL (l : List Char) : Bool := l.any isGujarati

/-- Case-insensitive match of one pattern character `a` (a lowercase
literal of the regex) against a subject character `c` under
`re.IGNORECASE`. -/
def matchChar (a c : Char) : Bool := toLowerCh c == a

/-- Case-insensitive "the pattern `k` matches an initial segment of `s`". -/
def ciStarts : List Char → List Char → Bool
  | [], _ => true
  | _ :: _, [] => false
  | a :: k, c :: s => matchChar a c && ciStarts k s

/-- The trailing word boundary `\b` after a match of `k` at the front of
`s`: the character following the matched span must be a non-word character
or the string must end there. -/
def boundaryAfter (k s : List Char) : Bool :=
  match s.drop k.length with
  | [] => true
  | c :: _ => !isWordChar c

/-- The pattern `\b k \b` (with `k` nonempty, all word characters) matches
at the current position of `s`, given that the preceding character (if
any) was a non-word character — the leading `\b`.  The leading boundary is
tracked by the caller. -/
def matchesAt (k s : List Char) : Bool := ciStarts k s && boundaryAfter k s

/-- One left-to-right pass of `re.sub(r'\b'+k+r'\b', v, s, re.IGNORECASE)`.
`prev` records whether the previous character was a word character (false
at the start of the string).  On a match the scanner emits `v` and resumes
after the matched span, whose last character is a word character.  The
`fuel` argument makes the recursion structural; `fuel = s.length`
suffices because every step consumes at least one character. -/
def subAuxF (k v : List Char) : Nat → Bool → List Char → List Char
  | _, _, [] => []
  | 0, _, s => s
  | fuel + 1, prev, c :: t =>
    if !prev && matchesAt k (c :: t) then
      v ++ subAuxF k v fuel true (t.drop (k.length - 1))
    else
      c :: subAuxF k v fuel (isWordChar c) t

/-- `re.sub(r'\b'+k+r'\b', v, s, flags=re.IGNORECASE)` on lists. -/
def wholeWordSubL (k v s : List Char) : List Char :=
  subAuxF k v s.length false s

/-- `re.search` for the pattern `\b k \b` with `re.IGNORECASE`:
does a boundary-delimited case-insensitive occurrence of `k` exist? -/
def hasWordAux (k : List Char) : Bool → List Char → Bool
  | _, [] => false
  | prev, c :: t => (!prev && matchesAt k (c :: t)) || hasWordAux k (isWordChar c) t

/-- `re.search(r'\b'+k+r'\b', s, re.IGNORECASE) is not None` on lists. -/
def hasWholeWordL (k s : List Char) : Bool := hasWordAux k false s

/-- String interface of `wholeWordSubL`. -/
def wholeWordSub (k v s : String) : String :=
  ⟨wholeWordSubL k.toList v.toList s.toList⟩

/-- String interface of `hasWholeWordL`. -/
def hasWholeWord (k s : String) : Bool := hasWholeWordL k.toList s.toList

/-- Literal (case-sensitive) "p begins s". -/
def litStarts : List Char → List Char → Bool
  | [], _ => true
  | _ :: _, [] => false
  | a :: p, c :: s => a == c && litStarts p s

/-- Python `str.replace(pat, rep)`: replace every occurrence of `pat`,
scanning left to right without overlap.  `fuel = s.length` suffices for
the nonempty patterns used here. -/
def replaceAllF (pat rep : List Char) : Nat → List Char → List Char
  | _, [] => []
  | 0, s => s
  | fuel + 1, c :: t =>
    if litStarts pat (c :: t) then
      rep ++ replaceAllF pat rep fuel ((c :: t).drop pat.length)
    else
      c :: replaceAllF pat rep fuel t

/-- Python `str.replace` on lists. -/
def replaceAllL (pat rep s : List Char) : List Char :=
  replaceAllF pat rep s.length s

/-- Python `str.replace` on strings. -/
def pyReplace (s pat rep : String) : String :=
  ⟨replaceAllL pat.toList rep.toList s.toList⟩

/-- Does `s` contain `n` as a contiguous substring? -/
def containsSubL (n : List Char) : List Char → Bool
  | [] => litStarts n []
  | c :: t => litStarts n (c :: t) || containsSubL n t

/-- Substring containment on strings. -/
def containsSub (n s : String) : Bool := containsSubL n.toList s.toList

/-- `re.sub(r'_?પ્લેસહોલ્ડર', '', s)` (app.py line 233): at each position
the scanner first tries to consume an optional underscore and then the
literal placeholder word; matched spans are deleted. -/
def stripArtifactsF (pat : List Char) : Nat → List Char → List Char
  | _, [] => []
  | 0, s => s
  | fuel + 1, c :: t =>
    if c == '_' && litStarts pat t then
      stripArtifactsF pat fuel (t.drop pat.length)
    else if litStarts pat (c :: t) then
      stripArtifactsF pat fuel ((c :: t).drop pat.length)
    else
      c :: stripArtifactsF pat fuel t

/-- `re.sub(r'_?પ્લેસહોલ્ડર', '', s)` on strings. -/
def stripArtifacts (s : String) : String :=
  ⟨stripArtifactsF "પ્લેસહોલ્ડર".toList s.toList.length s.toList⟩

/-- The `ENGLISH_TO_GUJARATI` dictionary of app.py lines 69-173, in source
(insertion) order, which is the iteration order of `dict.items()`. -/
def ENGLISH_TO_GUJARATI : List (String × String) := [
  ("vadhel", "વઢેળ"),
  ("bhai", "ભાઈ"),
  ("ben", "બેન"),
  ("shri", "શ્રી"),
  ("patel", "પટેલ"),
  ("desai", "દેસાઈ"),
  ("shah", "શાહ"),
  ("modi", "મોદી"),
  ("joshi", "જોશી"),
  ("dave", "દવે"),
  ("mehta", "મેહતા"),
  ("trivedi", "ત્રિવેદી"),
  ("pandya", "પંડ્યા"),
  ("sharma", "શર્મા"),
  ("parikh", "પારીખ"),
  ("vyas", "વ્યાસ"),
  ("amin", "અમીન"),
  ("thakkar", "ઠક્કર"),
  ("solanki", "સોલંકી"),
  ("raval", "રાવલ"),
  ("bhatt", "ભટ્ટ"),
  ("bhavsar", "ભાવસાર"),
  ("choksi", "ચોકસી"),
  ("dalal", "દલાલ"),
  ("gandhi", "ગાંધી"),
  ("kapadia", "કપાડિયા"),
  ("mistry", "મિસ્ત્રી"),
  ("panchal", "પંચાલ"),
  ("rathod", "રાઠોડ"),
  ("sanghvi", "સંઘવી"),
  ("vora", "વોરા"),
  ("ramesh", "રમેશ"),
  ("mahesh", "મહેશ"),
  ("suresh", "સુરેશ"),
  ("mukesh", "મુકેશ"),
  ("rajesh", "રાજેશ"),
  ("paresh", "પરેશ"),
  ("nilesh", "નિલેશ"),
  ("hitesh", "હિતેશ"),
  ("jignesh", "જિગ્નેશ"),
  ("dipak", "દિપક"),
  ("amit", "અમિત"),
  ("vijay", "વિજય"),
  ("ajay", "અજય"),
  ("sanjay", "સંજય"),
  ("jayesh", "જયેશ"),
  ("manish", "મનિષ"),
  ("ravi", "રવિ"),
  ("prakash", "પ્રકાશ"),
  ("ashok", "અશોક"),
  ("vinod", "વિનોદ"),
  ("anil", "અનિલ"),
  ("kishore", "કિશોર"),
  ("bharat", "ભરત"),
  ("kiran", "કિરણ"),
  ("yogesh", "યોગેશ"),
  ("naresh", "નરેશ"),
  ("dinesh", "દિનેશ"),
  ("sandip", "સંદીપ"),
  ("harish", "હરીશ"),
  ("jagdish", "જગદીશ"),
  ("girish", "ગિરીશ"),
  ("sarthak", "સાર્થક"),
  ("vasudha", "વસુધા"),
  ("kalpana", "કલ્પના"),
  ("anita", "અનિતા"),
  ("meera", "મીરા"),
  ("geeta", "ગીતા"),
  ("sita", "સીતા"),
  ("nisha", "નિશા"),
  ("priya", "પ્રિયા"),
  ("kavita", "કવિતા"),
  ("nita", "નીતા"),
  ("rita", "રીતા"),
  ("mita", "મીતા"),
  ("lata", "લતા"),
  ("asha", "આશા"),
  ("usha", "ઉષા"),
  ("rekha", "રેખા"),
  ("shobha", "શોભા"),
  ("manjula", "મંજુલા"),
  ("sarita", "સરિતા"),
  ("sunita", "સુનિતા"),
  ("kanta", "કાંતા"),
  ("pramila", "પ્રમિલા"),
  ("sharda", "શારદા"),
  ("kokila", "કોકિલા"),
  ("hansa", "હંસા"),
  ("leela", "લીલા"),
  ("maya", "માયા"),
  ("neeta", "નીતા"),
  ("vaishali", "વૈશાલી"),
  ("bharti", "ભારતી"),
  ("dipti", "દીપ્તી")
]

/-- The dictionary-substitution loop of app.py lines 249-251: for each
entry `(eng, guj)` in iteration order, `result = re.sub(r'\b'+eng+r'\b',
guj, result, flags=re.IGNORECASE)`. -/
def foldSubL (l : List (String × String)) (s : List Char) : List Char :=
  l.foldl (fun acc kv => wholeWordSubL kv.1.toList kv.2.toList acc) s

/-- String interface of `foldSubL`. -/
def foldSub (l : List (String × String)) (s : String) : String :=
  ⟨foldSubL l s.toList⟩

/-- The dictionary-based fallback, app.py lines 244-258: lowercase and
strip the input, run the substitution loop, return the substituted text if
it contains a Gujarati character and the original text otherwise. -/
def dict_fallback (english_text : String) : String :=
  if containsGujaratiL (foldSubL ENGLISH_TO_GUJARATI (pyClean english_text.toList))
  then ⟨foldSubL ENGLISH_TO_GUJARATI (pyClean english_text.toList)⟩
  else english_text

/-- `english_text.lower().strip()` as a string (the "cleaned" input of the
fallback). -/
def pyCleanStr (s : String) : String := ⟨pyClean s.toList⟩

/-- The pure dictionary-fallback computation in the words of the
specification (§4.1 steps 5-6): "lowercase and trim the input; for every
dictionary entry, replace whole-word case-insensitive matches of the
source key with its target value"; then "if the result contains any
target-script character, return it; otherwise return the original,
untranslated input verbatim".  This is the spec-side definition that the
refinement claim compares with the code's fallback path. -/
def dictFallbackSpec (x : String) : String :=
  if containsGujaratiL (foldSubL ENGLISH_TO_GUJARATI (pyClean x.toList))
  then ⟨foldSubL ENGLISH_TO_GUJARATI (pyClean x.toList)⟩
  else x

/-- The two failure modes caught by `except (TimeoutException, Exception)`
(app.py line 236): the `time_limit` alarm firing, or any other exception
raised by the translate call. -/
inductive RemoteFailure
  | timeout
  | failure

/-- The outcome of `translator.translate(text, src='en', dest='gu')` under
`time_limit(3)` (app.py lines 218-220): an exception/timeout, or a result
whose `.text` is `None`/missing (`Option.none`) or a string.  The model
abstracts the remote service as a function of the sent text. -/
def Remote : Type := String → Except RemoteFailure (Option String)

/-- The marker-correction block of app.py lines 225-233, applied to a
successful translation when the input contained "vadhel": replace the
marker and the two known near-miss transliterations by "વઢેળ", then delete
leftover placeholder artifacts. -/
def correctVadhel (t : String) : String :=
  stripArtifacts (pyReplace (pyReplace (pyReplace t "XXX999XXX" "વઢેળ")
    "વાધેલ" "વઢેળ") "વધેલ" "વઢેળ")

/-- The masking of app.py line 215: when the input contains "vadhel" as a
whole word (case-insensitively), substitute the marker before sending the
text to translation; otherwise send the text as is. -/
def maskVadhel (s : String) : String :=
  if hasWholeWord "vadhel" s then wholeWordSub "vadhel" "XXX999XXX" s else s

/-- `transliterate_to_gujarati` of app.py lines 192-258, with the remote
translate call abstracted as `remote`.

* line 198: `if not english_text: return ""` — a Python string is falsy
  exactly when it is empty;
* line 202: the already-in-Gujarati guard;
* lines 206-209: whole-word case-insensitive detection of "vadhel";
* line 215: masking "vadhel" by the marker `XXX999XXX` before translating;
* lines 218-235: the translate attempt; a non-empty translated text is
  returned (after marker correction when "vadhel" was present);
* lines 236-258: on timeout, any exception, or an empty/null result, the
  dictionary fallback runs. -/
def transliterate_to_gujarati (remote : Remote) (english_text : String) : String :=
  if english_text = "" then ""
  else if containsGujaratiL english_text.toList then english_text
  else
    match remote (maskVadhel english_text) with
    | Except.ok (some translated_text) =>
      if translated_text ≠ "" then
        if hasWholeWord "vadhel" english_text then correctVadhel translated_text
        else translated_text
      else dict_fallback english_text
    | Except.ok none => dict_fallback english_text
    | Except.error _ => dict_fallback english_text

/-- The body of the `try` block (app.py lines 212-235) as an `Except`
computation: whatever the remote call raises is re-raised; a successful
call yields `some` corrected text when the translated text is non-empty,
and `none` (fall through to the fallback) otherwise. -/
def tryTranslate (remote : Remote) (english_text : String) :
    Except RemoteFailure (Option String) := do
  let r ← remote (maskVadhel english_text)
  match r with
  | some translated_text =>
    if translated_text ≠ "" then
      pure (some (if hasWholeWord "vadhel" english_text
        then correctVadhel translated_text
        else translated_text))
    else pure none
  | none => pure none

/-- The resolver with exception propagation made explicit: the `try` block
is the `Except` computation `tryTranslate`, and the
`except (TimeoutException, Exception)` handler (app.py line 236) catches
every failure and falls through to the dictionary fallback.
`transliterate_to_gujarati` is this computation with the handler
applied. -/
def transliterateE (remote : Remote) (english_text : String) :
    Except RemoteFailure String :=
  if english_text = "" then Except.ok ""
  else if containsGujaratiL english_text.toList then Except.ok english_text
  else
    match tryTranslate remote english_text with
    | Except.ok (some out) => Except.ok out
    | Except.ok none => Except.ok (dict_fallback english_text)
    | Except.error _ => Except.ok (dict_fallback english_text)

/-- The remote step fails on every call: it raises, times out, or produces
an empty or null text — it never returns a non-empty translation. -/
def RemoteAlwaysFails (remote : Remote) : Prop :=
  ∀ s t, remote s = Except.ok (some t) → t = ""

/-- A remote that always times out. -/
def remoteDown : Remote := fun _ => Except.error RemoteFailure.timeout

/-- A dictionary key: a nonempty word of lowercase ASCII letters. -/
def KeyOK (k : List Char) : Prop := k ≠ [] ∧ ∀ c ∈ k, 97 ≤ c.toNat ∧ c.toNat ≤ 122

/-- A dictionary value: a nonempty word of characters of the Gujarati
Unicode block. -/
def ValOK (v : List Char) : Prop :=
  v ≠ [] ∧ ∀ c ∈ v, 0x0A80 ≤ c.toNat ∧ c.toNat ≤ 0x0AFF

/-- Every entry of a dictionary is well-formed. -/
def DictOK (l : List (String × String)) : Prop :=
  ∀ kv ∈ l, KeyOK kv.1.toList ∧ ValOK kv.2.toList

instance : DecidablePred KeyOK := fun _ =>
  inferInstanceAs (Decidable (_ ∧ _))

instance : DecidablePred ValOK := fun _ =>
  inferInstanceAs (Decidable (_ ∧ _))

/-- The class of a run: `true` for a run of word characters. -/
def classOf (r : List Char) : Bool :=
  match r with
  | [] => false
  | c :: _ => isWordChar c

/-- The effect of one `re.sub(r'\b'+k+r'\b', v, ·, re.IGNORECASE)` on one
maximal run: a word run that equals the key case-insensitively becomes the
replacement, everything else is untouched. -/
def fRun (k v : List Char) (r : List Char) : List Char :=
  if classOf r = true ∧ lowerL r = k then v else r

/-- A valid decomposition into maximal runs: every chunk is nonempty and
uniform in class, and adjacent chunks have opposite classes. -/
inductive Chunks : List (List Char) → Prop
  | nil : Chunks []
  | cons {r : List Char} {rs : List (List Char)} :
      r ≠ [] → (∀ c ∈ r, isWordChar c = classOf r) →
      (∀ r', rs.head? = some r' → classOf r' = !classOf r) →
      Chunks rs → Chunks (r :: rs)

/-- Splitting a string into maximal runs of equal `isWordChar` class. -/
def splitRuns : List Char → List (List Char)
  | [] => []
  | c :: t =>
    match splitRuns t with
    | [] => [[c]]
    | [] :: rs => [c] :: [] :: rs
    | (d :: r) :: rs =>
      if isWordChar c == isWordChar d then (c :: d :: r) :: rs
      else [c] :: (d :: r) :: rs

/-- The combined effect of the whole substitution loop on one maximal
run. -/
def applyRun (l : List (String × String)) (r : List Char) : List Char :=
  l.foldl (fun r kv => fRun kv.1.toList kv.2.toList r) r

theorem remoteDown_fails : RemoteAlwaysFails remoteDown :=
  fun _ _ h => nomatch h

/-! ### Character-level lemmas -/

theorem char_eq_of_toNat {c d : Char} (h : c.toNat = d.toNat) : c = d :=
  Char.ext (UInt32.toNat.inj h)

theorem toLowerCh_toNat_of_upper {c : Char} (h : 65 ≤ c.toNat ∧ c.toNat ≤ 90) :
    (toLowerCh c).toNat = c.toNat + 32 := by
  unfold toLowerCh
  rw [dif_pos h]
  rfl

theorem toLowerCh_of_not_upper {c : Char} (h : ¬(65 ≤ c.toNat ∧ c.toNat ≤ 90)) :
    toLowerCh c = c := by
  unfold toLowerCh
  rw [dif_neg h]

theorem toLowerCh_idem (c : Char) : toLowerCh (toLowerCh c) = toLowerCh c := by
  by_cases h : 65 ≤ c.toNat ∧ c.toNat ≤ 90
  · have h1 := toLowerCh_toNat_of_upper h
    exact toLowerCh_of_not_upper (by omega)
  · rw [toLowerCh_of_not_upper h, toLowerCh_of_not_upper h]

theorem isWordChar_true_iff (c : Char) : isWordChar c = true ↔
    (48 ≤ c.toNat ∧ c.toNat ≤ 57) ∨ (65 ≤ c.toNat ∧ c.toNat ≤ 90) ∨
    (97 ≤ c.toNat ∧ c.toNat ≤ 122) ∨ c.toNat = 95 ∨ 128 ≤ c.toNat := by
  have h : (c == '_') = (c.toNat == 95) := by
    by_cases hc : c = '_'
    · subst hc; rfl
    · have hn : ¬ c.toNat = 95 := fun hn => hc (char_eq_of_toNat hn)
      simp [hc, hn]
  unfold isWordChar
  rw [h]
  simp only [Bool.or_eq_true, Bool.and_eq_true, decide_eq_true_eq, beq_iff_eq]
  tauto

theorem isWordChar_toLowerCh (c : Char) : isWordChar (toLowerCh c) = isWordChar c := by
  by_cases h : 65 ≤ c.toNat ∧ c.toNat ≤ 90
  · have h1 := toLowerCh_toNat_of_upper h
    have h2 : isWordChar (toLowerCh c) = true := by
      rw [isWordChar_true_iff]; omega
    have h3 : isWordChar c = true := by
      rw [isWordChar_true_iff]; omega
    rw [h2, h3]
  · rw [toLowerCh_of_not_upper h]

theorem isGujarati_true_iff (c : Char) :
    isGujarati c = true ↔ 0x0A80 ≤ c.toNat ∧ c.toNat ≤ 0x0AFF := by
  unfold isGujarati
  simp [Bool.and_eq_true, decide_eq_true_eq]

theorem isGujarati_toLowerCh (c : Char) : isGujarati (toLowerCh c) = isGujarati c := by
  by_cases h : 65 ≤ c.toNat ∧ c.toNat ≤ 90
  · have h1 := toLowerCh_toNat_of_upper h
    have h2 : isGujarati (toLowerCh c) = false := by
      cases hg : isGujarati (toLowerCh c)
      · rfl
      · rw [isGujarati_true_iff] at hg; omega
    have h3 : isGujarati c = false := by
      cases hg : isGujarati c
      · rfl
      · rw [isGujarati_true_iff] at hg; omega
    rw [h2, h3]
  · rw [toLowerCh_of_not_upper h]

theorem word_of_matchChar {a c : Char} (ha : 97 ≤ a.toNat ∧ a.toNat ≤ 122)
    (h : matchChar a c = true) : isWordChar c = true := by
  have he : toLowerCh c = a := by
    unfold matchChar at h
    exact eq_of_beq h
  by_cases hu : 65 ≤ c.toNat ∧ c.toNat ≤ 90
  · rw [isWordChar_true_iff]; omega
  · rw [toLowerCh_of_not_upper hu] at he
    subst he
    rw [isWordChar_true_iff]; omega

theorem matchChar_false_of_nonword {a c : Char} (ha : 97 ≤ a.toNat ∧ a.toNat ≤ 122)
    (h : isWordChar c = false) : matchChar a c = false := by
  cases hm : matchChar a c
  · rfl
  · rw [word_of_matchChar ha hm] at h
    exact absurd h (by simp)

theorem matchChar_false_of_high {a c : Char} (ha : a.toNat ≤ 122)
    (hc : 128 ≤ c.toNat) : matchChar a c = false := by
  have he : toLowerCh c = c := toLowerCh_of_not_upper (by omega)
  unfold matchChar
  rw [he]
  cases hb : (c == a)
  · rfl
  · have : c = a := eq_of_beq hb
    subst this; omega

theorem nonword_of_pySpace {c : Char} (h : isPySpace c = true) :
    isWordChar c = false ∧ isGujarati c = false := by
  unfold isPySpace at h
  simp only [Bool.or_eq_true, beq_iff_eq] at h
  rcases h with ((((h | h) | h) | h) | h) | h <;> subst h <;> exact ⟨by decide, by decide⟩

/-! ### Well-formedness of the dictionary -/

theorem dict_ok : DictOK ENGLISH_TO_GUJARATI := by
  unfold DictOK
  decide

theorem dict_keys_nodup : (ENGLISH_TO_GUJARATI.map Prod.fst).Nodup := by decide

/-! ### The substitution scanner: fuel irrelevance and run-wise behaviour -/

theorem subAuxF_nil (k v : List Char) (f : Nat) (p : Bool) :
    subAuxF k v f p [] = [] := by
  cases f <;> rfl

theorem subAuxF_fuel (k v : List Char) :
    ∀ (f₁ : Nat) (s : List Char) (f₂ : Nat) (p : Bool),
      s.length ≤ f₁ → s.length ≤ f₂ →
      subAuxF k v f₁ p s = subAuxF k v f₂ p s := by
  intro f₁
  induction f₁ with
  | zero =>
    intro s f₂ p h1 _
    have : s = [] := List.length_eq_zero.mp (Nat.le_zero.mp h1)
    subst this
    rw [subAuxF_nil, subAuxF_nil]
  | succ f ih =>
    intro s f₂ p h1 h2
    cases s with
    | nil => rw [subAuxF_nil, subAuxF_nil]
    | cons c t =>
      cases f₂ with
      | zero => simp at h2
      | succ g =>
        show (if !p && matchesAt k (c :: t) then
            v ++ subAuxF k v f true (t.drop (k.length - 1))
          else c :: subAuxF k v f (isWordChar c) t) =
          (if !p && matchesAt k (c :: t) then
            v ++ subAuxF k v g true (t.drop (k.length - 1))
          else c :: subAuxF k v g (isWordChar c) t)
        simp only [List.length_cons] at h1 h2
        split
        · rw [ih (t.drop (k.length - 1)) g true
            (by simpa using Nat.le_trans (Nat.sub_le _ _) (by omega))
            (by simpa using Nat.le_trans (Nat.sub_le _ _) (by omega))]
        · rw [ih t g (isWordChar c) (by omega) (by omega)]

theorem wholeWordSubL_eq_subAuxF (k v s : List Char) (f : Nat)
    (hf : s.length ≤ f) : wholeWordSubL k v s = subAuxF k v f false s :=
  subAuxF_fuel k v s.length s f false (Nat.le_refl _) hf

theorem ciStarts_false_of_nonword_head {k : List Char} (hk : KeyOK k)
    {c : Char} (hc : isWordChar c = false) (t : List Char) :
    ciStarts k (c :: t) = false := by
  obtain ⟨hne, hall⟩ := hk
  cases k with
  | nil => exact absurd rfl hne
  | cons a k' =>
    show (matchChar a c && ciStarts k' t) = false
    rw [matchChar_false_of_nonword (hall a (List.mem_cons_self a k')) hc]
    rfl

theorem ciStarts_false_of_high_head {k : List Char} (hk : KeyOK k)
    {c : Char} (hc : 128 ≤ c.toNat) (t : List Char) :
    ciStarts k (c :: t) = false := by
  obtain ⟨hne, hall⟩ := hk
  cases k with
  | nil => exact absurd rfl hne
  | cons a k' =>
    show (matchChar a c && ciStarts k' t) = false
    rw [matchChar_false_of_high (hall a (List.mem_cons_self a k')).2 hc]
    rfl

theorem matchesAt_false_of_nonword_head {k : List Char} (hk : KeyOK k)
    {c : Char} (hc : isWordChar c = false) (t : List Char) :
    matchesAt k (c :: t) = false := by
  unfold matchesAt
  rw [ciStarts_false_of_nonword_head hk hc]
  rfl

theorem matchesAt_false_of_high_head {k : List Char} (hk : KeyOK k)
    {c : Char} (hc : 128 ≤ c.toNat) (t : List Char) :
    matchesAt k (c :: t) = false := by
  unfold matchesAt
  rw [ciStarts_false_of_high_head hk hc]
  rfl

/-- Unfolding the scanner one step when no match fires at the current
position. -/
theorem subAuxF_step_nomatch {k v : List Char} {c : Char} {t : List Char}
    {p : Bool} (f : Nat) (h : (!p && matchesAt k (c :: t)) = false) :
    subAuxF k v (f + 1) p (c :: t) = c :: subAuxF k v f (isWordChar c) t := by
  show (if !p && matchesAt k (c :: t) then _ else _) = _
  rw [h]
  simp

/-- Unfolding the scanner one step on a match at a boundary position. -/
theorem subAuxF_step_match {k v : List Char} {c : Char} {t : List Char}
    (f : Nat) (h : matchesAt k (c :: t) = true) :
    subAuxF k v (f + 1) false (c :: t) =
      v ++ subAuxF k v f true (t.drop (k.length - 1)) := by
  show (if !false && matchesAt k (c :: t) then _ else _) = _
  rw [h]
  simp

/-- The scanner copies a run of non-word characters verbatim, from any
entry state, and leaves the state "previous character is not a word
character". -/
theorem subAuxF_sep {k v : List Char} (hk : KeyOK k) :
    ∀ (r : List Char), (∀ c ∈ r, isWordChar c = false) → r ≠ [] →
    ∀ (rest : List Char) (f : Nat) (p : Bool), (r ++ rest).length ≤ f →
    subAuxF k v f p (r ++ rest) = r ++ subAuxF k v rest.length false rest := by
  intro r
  induction r with
  | nil => intro _ h; exact absurd rfl h
  | cons c r' ih =>
    intro hall _ rest f p hf
    simp only [List.length_append, List.length_cons] at hf
    cases f with
    | zero => omega
    | succ f' =>
      have hc : isWordChar c = false := hall c (List.mem_cons_self c r')
      rw [List.cons_append, subAuxF_step_nomatch f'
        (by rw [matchesAt_false_of_nonword_head hk hc]; simp), hc]
      cases hr' : r' with
      | nil =>
        subst hr'
        simp only [List.nil_append, List.cons_append]
        rw [subAuxF_fuel k v f' rest rest.length false (by omega) (Nat.le_refl _)]
      | cons d r'' =>
        rw [← hr']
        rw [ih (fun x hx => hall x (List.mem_cons_of_mem c hx))
          (by simp [hr']) rest f' false (by simp; omega)]
        simp

/-- From the state "previous character is a word character" the scanner
copies word characters verbatim (no match can start inside a word). -/
theorem subAuxF_wordtail {k v : List Char} :
    ∀ (w : List Char), (∀ c ∈ w, isWordChar c = true) →
    ∀ (rest : List Char) (f : Nat), (w ++ rest).length ≤ f →
    subAuxF k v f true (w ++ rest) = w ++ subAuxF k v rest.length true rest := by
  intro w
  induction w with
  | nil =>
    intro _ rest f hf
    simp only [List.nil_append] at hf ⊢
    exact subAuxF_fuel k v f rest rest.length true hf (Nat.le_refl _)
  | cons c w' ih =>
    intro hall rest f hf
    simp only [List.length_append, List.length_cons] at hf
    cases f with
    | zero => omega
    | succ f' =>
      rw [List.cons_append, subAuxF_step_nomatch f' (by simp),
        hall c (List.mem_cons_self c w')]
      rw [ih (fun x hx => hall x (List.mem_cons_of_mem c hx)) rest f'
        (by simp; omega)]
      simp

/-! ### Case-insensitive matching of whole word runs -/

theorem ciStarts_self_low : ∀ (r t : List Char), ciStarts (lowerL r) (r ++ t) = true := by
  intro r
  induction r with
  | nil => intro t; rfl
  | cons c r' ih =>
    intro t
    show (matchChar (toLowerCh c) c && ciStarts (lowerL r') (r' ++ t)) = true
    rw [ih t]
    unfold matchChar
    simp

theorem ciStarts_length_le : ∀ (k s : List Char), ciStarts k s = true → k.length ≤ s.length := by
  intro k
  induction k with
  | nil => intro s _; exact Nat.zero_le _
  | cons a k' ih =>
    intro s h
    cases s with
    | nil => exact absurd h (by simp [ciStarts])
    | cons c t =>
      have h' : (matchChar a c && ciStarts k' t) = true := h
      rw [Bool.and_eq_true] at h'
      have := ih t h'.2
      simp only [List.length_cons]
      omega

theorem ciStarts_of_append {k : List Char} : ∀ (r t : List Char),
    k.length ≤ r.length → ciStarts k (r ++ t) = ciStarts k r := by
  induction k with
  | nil => intro r t _; rfl
  | cons a k' ih =>
    intro r t h
    cases r with
    | nil => simp at h
    | cons c r' =>
      show (matchChar a c && ciStarts k' (r' ++ t)) = (matchChar a c && ciStarts k' r')
      rw [ih r' t (by simp at h; omega)]

theorem ciStarts_eq_iff {k : List Char} : ∀ (r : List Char),
    k.length = r.length → (ciStarts k r = true ↔ lowerL r = k) := by
  induction k with
  | nil =>
    intro r h
    have : r = [] := List.length_eq_zero.mp h.symm
    subst this
    simp [ciStarts, lowerL]
  | cons a k' ih =>
    intro r h
    cases r with
    | nil => simp at h
    | cons c r' =>
      show (matchChar a c && ciStarts k' r') = true ↔ _
      rw [Bool.and_eq_true]
      unfold matchChar
      rw [beq_iff_eq]
      have := ih r' (by simp at h; omega)
      show _ ↔ toLowerCh c :: lowerL r' = a :: k'
      rw [List.cons.injEq]
      tauto

/-- A key (all ASCII letters) cannot case-insensitively run past a
non-word character: a matching occurrence that starts at the beginning of
`r ++ d :: t'` with `d` not a word character is contained in `r`. -/
theorem ciStarts_stop : ∀ (k r : List Char) (d : Char) (t' : List Char),
    (∀ c ∈ k, 97 ≤ c.toNat ∧ c.toNat ≤ 122) → isWordChar d = false →
    ciStarts k (r ++ d :: t') = true → k.length ≤ r.length := by
  intro k
  induction k with
  | nil => intro r d t' _ _ _; exact Nat.zero_le _
  | cons a k' ih =>
    intro r d t' hall hd h
    cases r with
    | nil =>
      exfalso
      have h' : (matchChar a d && ciStarts k' t') = true := h
      rw [Bool.and_eq_true] at h'
      rw [matchChar_false_of_nonword (hall a (List.mem_cons_self a k')) hd] at h'
      exact absurd h'.1 (by simp)
    | cons c r' =>
      have h' : (matchChar a c && ciStarts k' (r' ++ d :: t')) = true := h
      rw [Bool.and_eq_true] at h'
      have := ih r' d t' (fun x hx => hall x (List.mem_cons_of_mem a hx)) hd h'.2
      simp only [List.length_cons]
      omega

/-- Behaviour of the scanner at the start of a word run followed by a
non-word character or the end of the string: the run is replaced by `v`
exactly when it equals the key case-insensitively, and the scanner
continues after the run. -/
theorem subAuxF_wordrun {k v : List Char} (hk : KeyOK k) :
    ∀ (r : List Char), (∀ c ∈ r, isWordChar c = true) → r ≠ [] →
    ∀ (rest : List Char) (f : Nat),
    (rest = [] ∨ ∃ d t', rest = d :: t' ∧ isWordChar d = false) →
    (r ++ rest).length ≤ f →
    subAuxF k v f false (r ++ rest) =
      (if lowerL r = k then v else r) ++ subAuxF k v rest.length true rest := by
  intro r hall hne rest f hrest hf
  by_cases hlow : lowerL r = k
  · have hcist : ciStarts k (r ++ rest) = true := by
      rw [← hlow]; exact ciStarts_self_low r rest
    have hlen : k.length = r.length := by rw [← hlow]; simp [lowerL]
    have hbnd : boundaryAfter k (r ++ rest) = true := by
      unfold boundaryAfter
      rw [hlen, List.drop_left]
      rcases hrest with h | ⟨d, t', h, hd⟩
      · rw [h]
      · rw [h]; simp [hd]
    have hm : matchesAt k (r ++ rest) = true := by
      unfold matchesAt; rw [hcist, hbnd]; rfl
    cases r with
    | nil => exact absurd rfl hne
    | cons c r' =>
      simp only [List.length_append, List.length_cons] at hf
      cases f with
      | zero => omega
      | succ f' =>
        rw [List.cons_append] at hm
        rw [List.cons_append, subAuxF_step_match f' hm]
        have hdrop : (r' ++ rest).drop (k.length - 1) = rest := by
          have : k.length - 1 = r'.length := by simp at hlen; omega
          rw [this, List.drop_left]
        rw [hdrop, if_pos hlow,
          subAuxF_fuel k v f' rest rest.length true (by omega) (Nat.le_refl _)]
  · have hm : matchesAt k (r ++ rest) = false := by
      cases hmm : matchesAt k (r ++ rest)
      · rfl
      · exfalso
        unfold matchesAt at hmm
        rw [Bool.and_eq_true] at hmm
        obtain ⟨hci, hbnd⟩ := hmm
        have hkle : k.length ≤ r.length := by
          rcases hrest with h | ⟨d, t', h, hd⟩
          · subst h
            rw [List.append_nil] at hci
            exact ciStarts_length_le k r hci
          · subst h
            exact ciStarts_stop k r d t' hk.2 hd hci
        rcases Nat.lt_or_ge k.length r.length with hlt | hge
        · unfold boundaryAfter at hbnd
          rw [List.drop_append_of_le_length (Nat.le_of_lt hlt),
            List.drop_eq_getElem_cons hlt] at hbnd
          simp only [List.cons_append] at hbnd
          rw [hall (r[k.length]) (List.getElem_mem _)] at hbnd
          exact absurd hbnd (by simp)
        · have hlen : k.length = r.length := Nat.le_antisymm hkle hge
          rw [ciStarts_of_append r rest hkle] at hci
          exact hlow ((ciStarts_eq_iff r hlen).mp hci)
    cases r with
    | nil => exact absurd rfl hne
    | cons c r' =>
      simp only [List.length_append, List.length_cons] at hf
      cases f with
      | zero => omega
      | succ f' =>
        rw [List.cons_append] at hm
        rw [List.cons_append, subAuxF_step_nomatch f' (by rw [hm]; simp),
          hall c (List.mem_cons_self c r'),
          subAuxF_wordtail r' (fun x hx => hall x (List.mem_cons_of_mem c hx))
            rest f' (by simp; omega),
          if_neg hlow]
        simp

/-! ### Decomposition of a string into maximal runs -/

theorem splitRuns_spec : ∀ (l : List Char),
    Chunks (splitRuns l) ∧ (splitRuns l).flatten = l ∧
    (∀ r rs, splitRuns l = r :: rs → ∃ c t, l = c :: t ∧ r.head? = some c) := by
  intro l
  induction l with
  | nil => exact ⟨Chunks.nil, rfl, fun r rs h => nomatch h⟩
  | cons c t ih =>
    obtain ⟨ihc, ihf, ihh⟩ := ih
    cases hs : splitRuns t with
    | nil =>
      have ht : t = [] := by rw [hs] at ihf; exact ihf.symm
      subst ht
      refine ⟨?_, by simp [splitRuns, hs], ?_⟩
      · show Chunks (splitRuns [c])
        simp only [splitRuns]
        exact Chunks.cons (by simp) (by intro x hx; simp at hx; subst hx; rfl)
          (by intro r' h; simp at h) Chunks.nil
      · intro r rs h
        simp only [splitRuns] at h
        rw [List.cons.injEq] at h
        exact ⟨c, [], rfl, by rw [← h.1]; rfl⟩
    | cons r₀ rs₀ =>
      obtain ⟨d, t', htd, hh⟩ := ihh r₀ rs₀ hs
      cases r₀ with
      | nil => simp at hh
      | cons d₀ r₀' =>
        rw [hs] at ihc ihf
        have hstep : splitRuns (c :: t) =
            if isWordChar c == isWordChar d₀ then (c :: d₀ :: r₀') :: rs₀
            else [c] :: (d₀ :: r₀') :: rs₀ := by
          show (match splitRuns t with
            | [] => [[c]]
            | [] :: rs => [c] :: [] :: rs
            | (e :: r) :: rs =>
              if isWordChar c == isWordChar e then (c :: e :: r) :: rs
              else [c] :: (e :: r) :: rs) = _
          rw [hs]
        have hflat : d₀ :: (r₀' ++ rs₀.flatten) = t := by
          simpa using ihf
        cases ihc with
        | cons hne huni halt hrs =>
          by_cases hcd : isWordChar c = isWordChar d₀
          · rw [hstep, if_pos (by simp [hcd])]
            refine ⟨?_, ?_, ?_⟩
            · refine Chunks.cons (by simp) ?_ ?_ hrs
              · intro x hx
                show isWordChar x = classOf (c :: d₀ :: r₀')
                rcases List.mem_cons.mp hx with hx | hx
                · subst hx; rfl
                · have := huni x hx
                  show isWordChar x = isWordChar c
                  rw [this, hcd]; rfl
              · intro r' h
                have := halt r' h
                rw [this]
                show (!classOf (d₀ :: r₀')) = !classOf (c :: d₀ :: r₀')
                show (!isWordChar d₀) = !isWordChar c
                rw [hcd]
            · simp only [List.flatten_cons, List.cons_append]
              exact congrArg (List.cons c) hflat
            · intro r rs h
              rw [List.cons.injEq] at h
              exact ⟨c, t, rfl, by rw [← h.1]; rfl⟩
          · rw [hstep, if_neg (by simp [hcd])]
            refine ⟨?_, ?_, ?_⟩
            · refine Chunks.cons (by simp) (by intro x hx; simp at hx; subst hx; rfl)
                ?_ (Chunks.cons hne huni halt hrs)
              intro r' h
              simp only [List.head?_cons, Option.some.injEq] at h
              subst h
              show classOf (d₀ :: r₀') = !classOf [c]
              show isWordChar d₀ = !isWordChar c
              cases hc : isWordChar c <;> cases hd : isWordChar d₀ <;>
                simp_all
            · simp only [List.flatten_cons, List.singleton_append]
              exact congrArg (List.cons c) hflat
            · intro r rs h
              rw [List.cons.injEq] at h
              exact ⟨c, t, rfl, by rw [← h.1]; rfl⟩

theorem chunks_splitRuns (l : List Char) : Chunks (splitRuns l) :=
  (splitRuns_spec l).1

theorem flatten_splitRuns (l : List Char) : (splitRuns l).flatten = l :=
  (splitRuns_spec l).2.1

/-- The bridge theorem: on a valid run decomposition, one substitution
pass acts exactly run by run.  The state argument `p` must be `false`
whenever the first run is a word run (it always is at the start of the
string, and after a separator run). -/
theorem subAuxF_chunks {k v : List Char} (hk : KeyOK k) :
    ∀ (rs : List (List Char)), Chunks rs → ∀ (f : Nat) (p : Bool),
    rs.flatten.length ≤ f →
    (∀ r', rs.head? = some r' → classOf r' = true → p = false) →
    subAuxF k v f p rs.flatten = (rs.map (fRun k v)).flatten := by
  intro rs hrs
  induction hrs with
  | nil => intro f p _ _; simp [subAuxF_nil]
  | @cons r rs' hne huni halt hrs' ih =>
    intro f p hf hp
    simp only [List.flatten_cons] at hf ⊢
    cases hcls : classOf r with
    | false =>
      rw [subAuxF_sep hk r (by intro x hx; rw [huni x hx, hcls]) hne
        rs'.flatten f p hf]
      rw [ih rs'.flatten.length false (Nat.le_refl _) (fun _ _ _ => rfl)]
      have : fRun k v r = r := by
        unfold fRun
        rw [if_neg (by rw [hcls]; simp)]
      simp [this]
    | true =>
      have hp' : p = false := hp r rfl hcls
      subst hp'
      have hword : ∀ c ∈ r, isWordChar c = true := by
        intro x hx; rw [huni x hx, hcls]
      have hshape : rs'.flatten = [] ∨
          ∃ d t', rs'.flatten = d :: t' ∧ isWordChar d = false := by
        cases hrs' with
        | nil => exact Or.inl rfl
        | @cons r₂ rs₂ hne₂ huni₂ _ _ =>
          right
          have hcls₂ : classOf r₂ = false := by
            have := halt r₂ rfl
            rw [hcls] at this
            simpa using this
          cases r₂ with
          | nil => exact absurd rfl hne₂
          | cons d t₂ =>
            refine ⟨d, t₂ ++ rs₂.flatten, by simp, ?_⟩
            have := huni₂ d (List.mem_cons_self d t₂)
            rw [this, hcls₂]
      rw [subAuxF_wordrun hk r hword hne rs'.flatten f hshape hf]
      rw [ih rs'.flatten.length true (Nat.le_refl _) ?_]
      · have : fRun k v r = if lowerL r = k then v else r := by
          unfold fRun
          by_cases h : lowerL r = k
          · rw [if_pos h, if_pos ⟨hcls, h⟩]
          · rw [if_neg h, if_neg (by intro hc; exact h hc.2)]
        rw [List.map_cons, List.flatten_cons, this]
      · intro r' h hcr'
        exfalso
        have := halt r' h
        rw [hcls, hcr'] at this
        simp at this

/-! ### The substitution loop run by run -/

theorem string_eq_of_toList {s t : String} (h : s.toList = t.toList) : s = t := by
  cases s with
  | mk a =>
    cases t with
    | mk b => exact congrArg String.mk h

theorem toList_mk (l : List Char) : String.toList ⟨l⟩ = l := rfl

theorem containsSub_mk (n : String) (l : List Char) :
    containsSub n ⟨l⟩ = containsSubL n.toList l := rfl

theorem lowerL_of_high {v : List Char} (hv : ∀ c ∈ v, 128 ≤ c.toNat) :
    lowerL v = v := by
  induction v with
  | nil => rfl
  | cons c t ih =>
    show toLowerCh c :: lowerL t = c :: t
    rw [toLowerCh_of_not_upper (by have := hv c (List.mem_cons_self c t); omega),
      ih (fun x hx => hv x (List.mem_cons_of_mem c hx))]

theorem classOf_of_valOK {v : List Char} (hv : ValOK v) : classOf v = true := by
  obtain ⟨hne, hall⟩ := hv
  cases v with
  | nil => exact absurd rfl hne
  | cons c t =>
    show isWordChar c = true
    rw [isWordChar_true_iff]
    have := hall c (List.mem_cons_self c t)
    omega

theorem valOK_high {v : List Char} (hv : ValOK v) : ∀ c ∈ v, 128 ≤ c.toNat :=
  fun c hc => by have := hv.2 c hc; omega

theorem lowerL_ne_key {v k : List Char} (hv : ValOK v) (hk : KeyOK k) :
    lowerL v ≠ k := by
  have hvall := valOK_high hv
  obtain ⟨hvne, _⟩ := hv
  obtain ⟨hkne, hkall⟩ := hk
  rw [lowerL_of_high hvall]
  cases v with
  | nil => exact absurd rfl hvne
  | cons c t =>
    cases k with
    | nil => exact absurd rfl hkne
    | cons a k' =>
      intro h
      rw [List.cons.injEq] at h
      have h1 := hvall c (List.mem_cons_self c t)
      have h2 := hkall a (List.mem_cons_self a k')
      have : c = a := h.1
      subst this
      omega

theorem fRun_fixed_of_valOK {v k' v' : List Char} (hv : ValOK v) (hk' : KeyOK k') :
    fRun k' v' v = v := by
  unfold fRun
  rw [if_neg]
  intro h
  exact lowerL_ne_key hv hk' h.2

theorem classOf_fRun {k v : List Char} (hv : ValOK v) (r : List Char) :
    classOf (fRun k v r) = classOf r := by
  unfold fRun
  split
  · next h => rw [classOf_of_valOK hv, h.1]
  · rfl

theorem fRun_ne_nil {k v : List Char} (hv : ValOK v) {r : List Char} (hr : r ≠ []) :
    fRun k v r ≠ [] := by
  unfold fRun
  split
  · exact hv.1
  · exact hr

theorem fRun_uniform {k v : List Char} (hv : ValOK v) {r : List Char}
    (hr : ∀ c ∈ r, isWordChar c = classOf r) :
    ∀ c ∈ fRun k v r, isWordChar c = classOf (fRun k v r) := by
  rw [classOf_fRun hv]
  unfold fRun
  split
  · next h =>
    intro c hc
    rw [h.1, isWordChar_true_iff]
    have := hv.2 c hc
    omega
  · exact hr

theorem chunks_map_fRun {k v : List Char} (hv : ValOK v) {rs : List (List Char)}
    (h : Chunks rs) : Chunks (rs.map (fRun k v)) := by
  induction h with
  | nil => exact Chunks.nil
  | @cons r rs' hne huni halt hrs ih =>
    rw [List.map_cons]
    refine Chunks.cons (fRun_ne_nil hv hne) (fRun_uniform hv huni) ?_ ih
    intro r' h
    rw [List.head?_map] at h
    cases hh : rs'.head? with
    | none => rw [hh] at h; simp at h
    | some r₀ =>
      rw [hh] at h
      simp only [Option.map_some', Option.some.injEq] at h
      subst h
      rw [classOf_fRun hv, classOf_fRun hv]
      exact halt r₀ hh

theorem foldSubL_chunks {l : List (String × String)} (hl : DictOK l) :
    ∀ (rs : List (List Char)), Chunks rs →
    foldSubL l rs.flatten = (rs.map (applyRun l)).flatten := by
  induction l with
  | nil =>
    intro rs _
    show rs.flatten = _
    have : applyRun ([] : List (String × String)) = fun r => r := rfl
    rw [this]
    simp
  | cons kv l' ih =>
    intro rs hrs
    have hkv := hl kv (List.mem_cons_self kv l')
    have hl' : DictOK l' := fun x hx => hl x (List.mem_cons_of_mem kv hx)
    show foldSubL l' (wholeWordSubL kv.1.toList kv.2.toList rs.flatten) = _
    rw [wholeWordSubL_eq_subAuxF _ _ _ rs.flatten.length (Nat.le_refl _),
      subAuxF_chunks hkv.1 rs hrs rs.flatten.length false (Nat.le_refl _)
        (fun _ _ _ => rfl),
      ih hl' (rs.map (fRun kv.1.toList kv.2.toList)) (chunks_map_fRun hkv.2 hrs),
      List.map_map]
    rfl

/-- The substitution loop, expressed run by run on any input. -/
theorem foldSubL_eq_runs {l : List (String × String)} (hl : DictOK l)
    (s : List Char) :
    foldSubL l s = ((splitRuns s).map (applyRun l)).flatten := by
  conv_lhs => rw [← flatten_splitRuns s]
  exact foldSubL_chunks hl (splitRuns s) (chunks_splitRuns s)

theorem fRun_comm {k₁ v₁ k₂ v₂ : List Char} (hk₁ : KeyOK k₁) (hk₂ : KeyOK k₂)
    (hv₁ : ValOK v₁) (hv₂ : ValOK v₂) (h12 : k₁ = k₂ → v₁ = v₂) :
    ∀ r, fRun k₂ v₂ (fRun k₁ v₁ r) = fRun k₁ v₁ (fRun k₂ v₂ r) := by
  intro r
  by_cases h₁ : classOf r = true ∧ lowerL r = k₁
  · by_cases h₂ : classOf r = true ∧ lowerL r = k₂
    · have hk : k₁ = k₂ := h₁.2 ▸ h₂.2
      have hv : v₁ = v₂ := h12 hk
      subst hk; subst hv
      rfl
    · rw [show fRun k₂ v₂ r = r from if_neg h₂,
        show fRun k₁ v₁ r = v₁ from if_pos h₁]
      exact fRun_fixed_of_valOK hv₁ hk₂
  · by_cases h₂ : classOf r = true ∧ lowerL r = k₂
    · rw [show fRun k₁ v₁ r = r from if_neg h₁,
        show fRun k₂ v₂ r = v₂ from if_pos h₂]
      exact (fRun_fixed_of_valOK hv₂ hk₁).symm
    · rw [show fRun k₁ v₁ r = r from if_neg h₁,
        show fRun k₂ v₂ r = r from if_neg h₂,
        show fRun k₁ v₁ r = r from if_neg h₁]

/-- A permutation of a well-formed dictionary with distinct keys has the
same combined effect on every run. -/
theorem applyRun_perm {l l' : List (String × String)} (hl : DictOK l)
    (hnd : (l.map Prod.fst).Nodup) (hp : l.Perm l') (r : List Char) :
    applyRun l r = applyRun l' r := by
  unfold applyRun
  refine hp.foldl_eq' ?_ r
  intro x hx y hy z
  by_cases hxy : x = y
  · subst hxy; rfl
  · have hkey : x.1 = y.1 → x = y :=
      fun h => List.inj_on_of_nodup_map hnd hx hy h
    have hx' := hl x hx
    have hy' := hl y hy
    exact fRun_comm hx'.1 hy'.1 hx'.2 hy'.2
      (fun h => congrArg (fun q => q.2.toList)
        (hkey (string_eq_of_toList h))) z

/-! ### The whole-word searcher run by run -/

theorem hasWordAux_step (k : List Char) (p : Bool) (c : Char) (t : List Char) :
    hasWordAux k p (c :: t) =
      ((!p && matchesAt k (c :: t)) || hasWordAux k (isWordChar c) t) := rfl

theorem hasWordAux_false_of_nonword {k : List Char} (hk : KeyOK k) :
    ∀ (s : List Char), (∀ c ∈ s, isWordChar c = false) → ∀ p,
    hasWordAux k p s = false := by
  intro s
  induction s with
  | nil => intro _ p; rfl
  | cons c t ih =>
    intro hall p
    rw [hasWordAux_step,
      matchesAt_false_of_nonword_head hk (hall c (List.mem_cons_self c t)),
      ih (fun x hx => hall x (List.mem_cons_of_mem c hx))]
    simp

theorem hasWordAux_false_of_high {k : List Char} (hk : KeyOK k) :
    ∀ (s : List Char), (∀ c ∈ s, 128 ≤ c.toNat) → ∀ p,
    hasWordAux k p s = false := by
  intro s
  induction s with
  | nil => intro _ p; rfl
  | cons c t ih =>
    intro hall p
    rw [hasWordAux_step,
      matchesAt_false_of_high_head hk (hall c (List.mem_cons_self c t)),
      ih (fun x hx => hall x (List.mem_cons_of_mem c hx))]
    simp

theorem hasWordAux_sep {k : List Char} (hk : KeyOK k) :
    ∀ (r : List Char), (∀ c ∈ r, isWordChar c = false) → r ≠ [] →
    ∀ (rest : List Char) (p : Bool),
    hasWordAux k p (r ++ rest) = hasWordAux k false rest := by
  intro r
  induction r with
  | nil => intro _ h; exact absurd rfl h
  | cons c r' ih =>
    intro hall _ rest p
    have hc : isWordChar c = false := hall c (List.mem_cons_self c r')
    rw [List.cons_append, hasWordAux_step,
      matchesAt_false_of_nonword_head hk hc, hc]
    simp only [Bool.and_false, Bool.false_or]
    cases hr' : r' with
    | nil => subst hr'; rfl
    | cons d r'' =>
      rw [← hr', ih (fun x hx => hall x (List.mem_cons_of_mem c hx))
        (by simp [hr']) rest false]

theorem hasWordAux_wordtail {k : List Char} :
    ∀ (w : List Char), (∀ c ∈ w, isWordChar c = true) →
    ∀ (rest : List Char),
    hasWordAux k true (w ++ rest) = hasWordAux k true rest := by
  intro w
  induction w with
  | nil => intro _ rest; rfl
  | cons c w' ih =>
    intro hall rest
    rw [List.cons_append, hasWordAux_step, hall c (List.mem_cons_self c w'),
      ih (fun x hx => hall x (List.mem_cons_of_mem c hx)) rest]
    simp

theorem hasWordAux_wordrun {k : List Char} (hk : KeyOK k) :
    ∀ (r : List Char), (∀ c ∈ r, isWordChar c = true) → r ≠ [] →
    ∀ (rest : List Char),
    (rest = [] ∨ ∃ d t', rest = d :: t' ∧ isWordChar d = false) →
    hasWordAux k false (r ++ rest) =
      (decide (lowerL r = k) || hasWordAux k true rest) := by
  intro r hall hne rest hrest
  by_cases hlow : lowerL r = k
  · have hcist : ciStarts k (r ++ rest) = true := by
      rw [← hlow]; exact ciStarts_self_low r rest
    have hlen : k.length = r.length := by rw [← hlow]; simp [lowerL]
    have hbnd : boundaryAfter k (r ++ rest) = true := by
      unfold boundaryAfter
      rw [hlen, List.drop_left]
      rcases hrest with h | ⟨d, t', h, hd⟩
      · rw [h]
      · rw [h]; simp [hd]
    have hm : matchesAt k (r ++ rest) = true := by
      unfold matchesAt; rw [hcist, hbnd]; rfl
    cases r with
    | nil => exact absurd rfl hne
    | cons c r' =>
      rw [List.cons_append] at hm
      rw [List.cons_append, hasWordAux_step, hm]
      simp [hlow]
  · have hm : matchesAt k (r ++ rest) = false := by
      cases hmm : matchesAt k (r ++ rest)
      · rfl
      · exfalso
        unfold matchesAt at hmm
        rw [Bool.and_eq_true] at hmm
        obtain ⟨hci, hbnd⟩ := hmm
        have hkle : k.length ≤ r.length := by
          rcases hrest with h | ⟨d, t', h, hd⟩
          · subst h
            rw [List.append_nil] at hci
            exact ciStarts_length_le k r hci
          · subst h
            exact ciStarts_stop k r d t' hk.2 hd hci
        rcases Nat.lt_or_ge k.length r.length with hlt | hge
        · unfold boundaryAfter at hbnd
          rw [List.drop_append_of_le_length (Nat.le_of_lt hlt),
            List.drop_eq_getElem_cons hlt] at hbnd
          simp only [List.cons_append] at hbnd
          rw [hall (r[k.length]) (List.getElem_mem _)] at hbnd
          exact absurd hbnd (by simp)
        · have hlen : k.length = r.length := Nat.le_antisymm hkle hge
          rw [ciStarts_of_append r rest hkle] at hci
          exact hlow ((ciStarts_eq_iff r hlen).mp hci)
    cases r with
    | nil => exact absurd rfl hne
    | cons c r' =>
      rw [List.cons_append] at hm
      rw [List.cons_append, hasWordAux_step, hm,
        hall c (List.mem_cons_self c r'),
        hasWordAux_wordtail r' (fun x hx => hall x (List.mem_cons_of_mem c hx)) rest]
      simp [hlow]

/-- The searcher, run by run: a whole-word occurrence of the key exists
exactly when some word run equals the key case-insensitively. -/
theorem hasWordAux_chunks {k : List Char} (hk : KeyOK k) :
    ∀ (rs : List (List Char)), Chunks rs → ∀ (p : Bool),
    (∀ r', rs.head? = some r' → classOf r' = true → p = false) →
    hasWordAux k p rs.flatten =
      rs.any (fun r => classOf r && decide (lowerL r = k)) := by
  intro rs hrs
  induction hrs with
  | nil => intro p _; rfl
  | @cons r rs' hne huni halt hrs' ih =>
    intro p hp
    simp only [List.flatten_cons]
    cases hcls : classOf r with
    | false =>
      rw [hasWordAux_sep hk r (by intro x hx; rw [huni x hx, hcls]) hne
        rs'.flatten p]
      rw [ih false (fun _ _ _ => rfl)]
      simp [hcls]
    | true =>
      have hp' : p = false := hp r rfl hcls
      subst hp'
      have hword : ∀ c ∈ r, isWordChar c = true := by
        intro x hx; rw [huni x hx, hcls]
      have hshape : rs'.flatten = [] ∨
          ∃ d t', rs'.flatten = d :: t' ∧ isWordChar d = false := by
        cases hrs' with
        | nil => exact Or.inl rfl
        | @cons r₂ rs₂ hne₂ huni₂ _ _ =>
          right
          have hcls₂ : classOf r₂ = false := by
            have := halt r₂ rfl
            rw [hcls] at this
            simpa using this
          cases r₂ with
          | nil => exact absurd rfl hne₂
          | cons d t₂ =>
            refine ⟨d, t₂ ++ rs₂.flatten, by simp, ?_⟩
            have := huni₂ d (List.mem_cons_self d t₂)
            rw [this, hcls₂]
      rw [hasWordAux_wordrun hk r hword hne rs'.flatten hshape]
      rw [ih true ?_]
      · simp [hcls]
      · intro r' h hcr'
        exfalso
        have := halt r' h
        rw [hcls, hcr'] at this
        simp at this

/-- Whole-word search characterised on the run decomposition. -/
theorem hasWholeWordL_eq_runs {k : List Char} (hk : KeyOK k) (s : List Char) :
    hasWholeWordL k s =
      (splitRuns s).any (fun r => classOf r && decide (lowerL r = k)) := by
  unfold hasWholeWordL
  conv_lhs => rw [← flatten_splitRuns s]
  exact hasWordAux_chunks hk (splitRuns s) (chunks_splitRuns s) false
    (fun _ _ _ => rfl)

/-! ### Lowercasing and stripping preserve whole-word occurrences -/

theorem lowerL_idem (r : List Char) : lowerL (lowerL r) = lowerL r := by
  unfold lowerL
  rw [List.map_map]
  exact List.map_congr_left (fun c _ => toLowerCh_idem c)

theorem classOf_lowerL (r : List Char) : classOf (lowerL r) = classOf r := by
  cases r with
  | nil => rfl
  | cons c t => exact isWordChar_toLowerCh c

theorem splitRuns_lowerL : ∀ (l : List Char),
    splitRuns (lowerL l) = (splitRuns l).map lowerL := by
  intro l
  induction l with
  | nil => rfl
  | cons c t ih =>
    show splitRuns (toLowerCh c :: lowerL t) = _
    have hstep : ∀ (x : Char) (m : List Char), splitRuns (x :: m) =
        match splitRuns m with
        | [] => [[x]]
        | [] :: rs => [x] :: [] :: rs
        | (d :: r) :: rs =>
          if isWordChar x == isWordChar d then (x :: d :: r) :: rs
          else [x] :: (d :: r) :: rs := fun x m => rfl
    rw [hstep, hstep, ih]
    cases hs : splitRuns t with
    | nil => rfl
    | cons r₀ rs₀ =>
      cases r₀ with
      | nil => rfl
      | cons d r₀' =>
        simp only [List.map_cons]
        show (match (lowerL (d :: r₀')) :: rs₀.map lowerL with
          | [] => [[toLowerCh c]]
          | [] :: rs => [toLowerCh c] :: [] :: rs
          | (e :: r) :: rs =>
            if isWordChar (toLowerCh c) == isWordChar e then (toLowerCh c :: e :: r) :: rs
            else [toLowerCh c] :: (e :: r) :: rs) = _
        show (if isWordChar (toLowerCh c) == isWordChar (toLowerCh d) then
            (toLowerCh c :: toLowerCh d :: lowerL r₀') :: rs₀.map lowerL
          else [toLowerCh c] :: (toLowerCh d :: lowerL r₀') :: rs₀.map lowerL) = _
        rw [isWordChar_toLowerCh, isWordChar_toLowerCh]
        by_cases hcd : isWordChar c = isWordChar d
        · rw [if_pos (by simp [hcd]), if_pos (by simp [hcd])]
          rfl
        · rw [if_neg (by simp [hcd]), if_neg (by simp [hcd])]
          rfl

theorem hasWholeWordL_lowerL {k : List Char} (hk : KeyOK k) (s : List Char) :
    hasWholeWordL k (lowerL s) = hasWholeWordL k s := by
  rw [hasWholeWordL_eq_runs hk, hasWholeWordL_eq_runs hk, splitRuns_lowerL,
    List.any_map]
  have : ((fun r => classOf r && decide (lowerL r = k)) ∘ lowerL) =
      (fun r => classOf r && decide (lowerL r = k)) := by
    funext r
    show (classOf (lowerL r) && decide (lowerL (lowerL r) = k)) = _
    rw [classOf_lowerL, lowerL_idem]
  rw [this]

theorem matchesAt_append_sep {k : List Char} (hk : KeyOK k) {b : List Char}
    (hb : ∀ c ∈ b, isWordChar c = false) (s : List Char) :
    matchesAt k (s ++ b) = matchesAt k s := by
  by_cases hkle : k.length ≤ s.length
  · unfold matchesAt
    rw [ciStarts_of_append s b hkle]
    have hbd : boundaryAfter k (s ++ b) = boundaryAfter k s := by
      unfold boundaryAfter
      rw [List.drop_append_of_le_length hkle]
      cases hd : s.drop k.length with
      | nil =>
        simp only [List.nil_append]
        cases hb' : b with
        | nil => rfl
        | cons d t' =>
          show (!isWordChar d) = true
          rw [hb d (by rw [hb']; exact List.mem_cons_self d t')]
          rfl
      | cons e rest' => rfl
    rw [hbd]
  · have hc1 : ciStarts k s = false := by
      cases hc : ciStarts k s
      · rfl
      · exact absurd (ciStarts_length_le k s hc) hkle
    have hc2 : ciStarts k (s ++ b) = false := by
      cases hc : ciStarts k (s ++ b)
      · rfl
      · exfalso
        cases hb' : b with
        | nil =>
          rw [hb', List.append_nil] at hc
          rw [hc] at hc1
          exact absurd hc1 (by simp)
        | cons d t' =>
          rw [hb'] at hc
          exact hkle (ciStarts_stop k s d t' hk.2
            (hb d (by rw [hb']; exact List.mem_cons_self d t')) hc)
    unfold matchesAt
    rw [hc1, hc2]
    simp

theorem hasWordAux_sep_end {k : List Char} (hk : KeyOK k) {b : List Char}
    (hb : ∀ c ∈ b, isWordChar c = false) :
    ∀ (s : List Char) (p : Bool), hasWordAux k p (s ++ b) = hasWordAux k p s := by
  intro s
  induction s with
  | nil =>
    intro p
    exact hasWordAux_false_of_nonword hk b hb p
  | cons c t ih =>
    intro p
    rw [List.cons_append, hasWordAux_step, hasWordAux_step, ih,
      show matchesAt k (c :: (t ++ b)) = matchesAt k (c :: t) from
        matchesAt_append_sep hk hb (c :: t)]

theorem hasWordAux_sep_front {k : List Char} (hk : KeyOK k) {a : List Char}
    (ha : ∀ c ∈ a, isWordChar c = false) (rest : List Char) :
    hasWordAux k false (a ++ rest) = hasWordAux k false rest := by
  cases h : a with
  | nil => rfl
  | cons c t =>
    rw [← h]
    exact hasWordAux_sep hk a ha (by simp [h]) rest false

theorem hasWholeWordL_pyStrip {k : List Char} (hk : KeyOK k) (l : List Char) :
    hasWholeWordL k (pyStrip l) = hasWholeWordL k l := by
  unfold hasWholeWordL
  have hA : hasWordAux k false l =
      hasWordAux k false (l.dropWhile isPySpace) := by
    conv_lhs => rw [← List.takeWhile_append_dropWhile (p := isPySpace) (l := l)]
    exact hasWordAux_sep_front hk
      (fun c hc => (nonword_of_pySpace (List.mem_takeWhile_imp hc)).1) _
  have hm : l.dropWhile isPySpace =
      pyStrip l ++ ((l.dropWhile isPySpace).reverse.takeWhile isPySpace).reverse := by
    conv_lhs => rw [← List.reverse_reverse (l.dropWhile isPySpace),
      ← List.takeWhile_append_dropWhile (p := isPySpace)
        (l := (l.dropWhile isPySpace).reverse)]
    rw [List.reverse_append]
    rfl
  rw [hA, hm, hasWordAux_sep_end hk
    (fun c hc => (nonword_of_pySpace
      (List.mem_takeWhile_imp (List.mem_reverse.mp hc))).1)]

theorem hasWholeWordL_pyClean {k : List Char} (hk : KeyOK k) (l : List Char) :
    hasWholeWordL k (pyClean l) = hasWholeWordL k l := by
  unfold pyClean
  rw [hasWholeWordL_pyStrip hk, hasWholeWordL_lowerL hk]

/-! ### Substring containment -/

theorem litStarts_append_self : ∀ (n t : List Char), litStarts n (n ++ t) = true := by
  intro n
  induction n with
  | nil => intro t; rfl
  | cons a n' ih =>
    intro t
    show (a == a && litStarts n' (n' ++ t)) = true
    rw [ih t]
    simp

theorem containsSubL_of_litStarts {n hay : List Char} (h : litStarts n hay = true) :
    containsSubL n hay = true := by
  cases hay with
  | nil => exact h
  | cons c t =>
    show (litStarts n (c :: t) || containsSubL n t) = true
    rw [h]
    rfl

theorem containsSubL_append_left : ∀ (s n t : List Char),
    containsSubL n (s ++ (n ++ t)) = true := by
  intro s
  induction s with
  | nil =>
    intro n t
    exact containsSubL_of_litStarts (litStarts_append_self n t)
  | cons c s' ih =>
    intro n t
    show (litStarts n (c :: (s' ++ (n ++ t))) || containsSubL n (s' ++ (n ++ t))) = true
    rw [ih n t]
    simp

theorem containsSubL_of_infix {n hay : List Char} (h : n <:+: hay) :
    containsSubL n hay = true := by
  obtain ⟨s, t, rfl⟩ := h
  rw [List.append_assoc]
  exact containsSubL_append_left s n t

theorem containsGujaratiL_of_mem {l : List Char} {c : Char} (hm : c ∈ l)
    (hg : isGujarati c = true) : containsGujaratiL l = true :=
  List.any_eq_true.mpr ⟨c, hm, hg⟩

/-! ### Evaluating the loop on a matching run -/

theorem applyRun_cons (kv : String × String) (l : List (String × String))
    (r : List Char) :
    applyRun (kv :: l) r = applyRun l (fRun kv.1.toList kv.2.toList r) := rfl

theorem applyRun_fixed {l : List (String × String)} (hl : DictOK l)
    {v : List Char} (hv : ValOK v) : applyRun l v = v := by
  induction l with
  | nil => rfl
  | cons kv l' ih =>
    rw [applyRun_cons,
      fRun_fixed_of_valOK hv (hl kv (List.mem_cons_self kv l')).1]
    exact ih (fun x hx => hl x (List.mem_cons_of_mem kv hx))

theorem applyRun_head_match {k₀ v₀ : String} {l' : List (String × String)}
    (hl : DictOK ((k₀, v₀) :: l')) {r : List Char} (hcls : classOf r = true)
    (hlow : lowerL r = k₀.toList) :
    applyRun ((k₀, v₀) :: l') r = v₀.toList := by
  rw [applyRun_cons,
    show fRun k₀.toList v₀.toList r = v₀.toList from if_pos ⟨hcls, hlow⟩]
  exact applyRun_fixed (fun x hx => hl x (List.mem_cons_of_mem _ hx))
    (hl (k₀, v₀) (List.mem_cons_self _ l')).2

theorem applyRun_gujarati {l : List (String × String)} (hl : DictOK l)
    {r : List Char} (hcls : classOf r = true)
    (h : ∃ kv ∈ l, lowerL r = kv.1.toList) :
    ∀ c ∈ applyRun l r, 0x0A80 ≤ c.toNat ∧ c.toNat ≤ 0x0AFF := by
  induction l with
  | nil =>
    obtain ⟨kv, hkv, _⟩ := h
    exact absurd hkv (List.not_mem_nil kv)
  | cons kv l' ih =>
    have hl' : DictOK l' := fun x hx => hl x (List.mem_cons_of_mem kv hx)
    by_cases hm : lowerL r = kv.1.toList
    · rw [applyRun_cons,
        show fRun kv.1.toList kv.2.toList r = kv.2.toList from if_pos ⟨hcls, hm⟩,
        applyRun_fixed hl' (hl kv (List.mem_cons_self kv l')).2]
      exact (hl kv (List.mem_cons_self kv l')).2.2
    · rw [applyRun_cons,
        show fRun kv.1.toList kv.2.toList r = r from if_neg (fun hh => hm hh.2)]
      obtain ⟨kv', hkv', heq⟩ := h
      rcases List.mem_cons.mp hkv' with hh | hh
      · exact absurd (hh ▸ heq) hm
      · exact ih hl' ⟨kv', hh, heq⟩

theorem applyRun_ne_nil {l : List (String × String)} (hl : DictOK l)
    {r : List Char} (hr : r ≠ []) : applyRun l r ≠ [] := by
  induction l generalizing r with
  | nil => exact hr
  | cons kv l' ih =>
    rw [applyRun_cons]
    exact ih (fun x hx => hl x (List.mem_cons_of_mem kv hx))
      (fRun_ne_nil (hl kv (List.mem_cons_self kv l')).2 hr)

theorem chunks_mem_ne_nil {rs : List (List Char)} (h : Chunks rs) :
    ∀ r ∈ rs, r ≠ [] := by
  induction h with
  | nil => intro r hr; exact absurd hr (List.not_mem_nil r)
  | @cons r₀ rs' hne _ _ _ ih =>
    intro r hr
    rcases List.mem_cons.mp hr with hh | hh
    · exact hh ▸ hne
    · exact ih r hh

/-! ### Path lemmas for the resolver -/

theorem foldSubL_nil_input (l : List (String × String)) : foldSubL l [] = [] := by
  induction l with
  | nil => rfl
  | cons kv l' ih =>
    show foldSubL l' (wholeWordSubL kv.1.toList kv.2.toList []) = []
    rw [show wholeWordSubL kv.1.toList kv.2.toList [] = [] from rfl]
    exact ih

theorem transliterate_empty (remote : Remote) :
    transliterate_to_gujarati remote "" = "" := rfl

theorem transliterate_guard {x : String} (remote : Remote) (hx : x ≠ "")
    (hg : containsGujaratiL x.toList = true) :
    transliterate_to_gujarati remote x = x := by
  unfold transliterate_to_gujarati
  rw [if_neg hx, if_pos hg]

theorem transliterate_fallback {x : String} {remote : Remote}
    (hfail : RemoteAlwaysFails remote) (hx : x ≠ "")
    (hg : containsGujaratiL x.toList = false) :
    transliterate_to_gujarati remote x = dict_fallback x := by
  unfold transliterate_to_gujarati
  rw [if_neg hx, if_neg (by rw [hg]; simp)]
  cases hr : remote (maskVadhel x) with
  | ok o =>
    cases o with
    | some t =>
      have ht : t = "" := hfail _ t hr
      subst ht
      simp
    | none => rfl
  | error e => rfl

theorem toList_ne_nil_of_ne_empty {x : String} (hx : x ≠ "") : x.toList ≠ [] := by
  intro h
  exact hx (string_eq_of_toList h)

theorem ne_empty_of_toList_ne_nil {x : String} (hx : x.toList ≠ []) : x ≠ "" := by
  intro h
  subst h
  exact hx rfl

theorem containsGujaratiL_pyClean_false {l : List Char}
    (h : containsGujaratiL l = false) :
    containsGujaratiL (pyClean l) = false := by
  cases hc : containsGujaratiL (pyClean l)
  · rfl
  · exfalso
    obtain ⟨c, hm, hg⟩ := List.any_eq_true.mp hc
    have hpc : pyClean l =
        (((lowerL l).dropWhile isPySpace).reverse.dropWhile isPySpace).reverse := rfl
    rw [hpc] at hm
    have hml : c ∈ lowerL l := by
      have h2 : c ∈ ((lowerL l).dropWhile isPySpace).reverse.dropWhile isPySpace :=
        List.mem_reverse.mp hm
      have h3 : c ∈ ((lowerL l).dropWhile isPySpace).reverse :=
        (List.dropWhile_sublist _).subset h2
      have h4 : c ∈ (lowerL l).dropWhile isPySpace := List.mem_reverse.mp h3
      exact (List.dropWhile_sublist _).subset h4
    obtain ⟨d, hd, hdc⟩ := List.mem_map.mp hml
    have : isGujarati d = true := by rw [← isGujarati_toLowerCh, hdc]; exact hg
    have := containsGujaratiL_of_mem hd this
    rw [this] at h
    exact absurd h (by simp)

/-! ### No dictionary match: the substitution loop is the identity -/

theorem subAuxF_id_of_no_match {k v : List Char} :
    ∀ (s : List Char) (p : Bool), hasWordAux k p s = false →
    ∀ f, subAuxF k v f p s = s := by
  intro s
  induction s with
  | nil => intro p _ f; exact subAuxF_nil k v f p
  | cons c t ih =>
    intro p h f
    rw [hasWordAux_step] at h
    rw [Bool.or_eq_false_iff] at h
    cases f with
    | zero => rfl
    | succ f' =>
      rw [subAuxF_step_nomatch f' h.1]
      rw [ih (isWordChar c) h.2 f']

theorem foldSubL_id_of_no_match {l : List (String × String)} {s : List Char}
    (h : ∀ kv ∈ l, hasWholeWordL kv.1.toList s = false) :
    foldSubL l s = s := by
  induction l with
  | nil => rfl
  | cons kv l' ih =>
    show foldSubL l' (wholeWordSubL kv.1.toList kv.2.toList s) = s
    rw [show wholeWordSubL kv.1.toList kv.2.toList s = s from
      subAuxF_id_of_no_match s false (h kv (List.mem_cons_self kv l')) s.length]
    exact ih (fun x hx => h x (List.mem_cons_of_mem kv hx))

/-! ### A dictionary match puts Gujarati text into the fallback result -/

theorem foldSubL_gujarati_of_match {s : List Char}
    (h : ∃ kv ∈ ENGLISH_TO_GUJARATI, hasWholeWordL kv.1.toList s = true) :
    containsGujaratiL (foldSubL ENGLISH_TO_GUJARATI s) = true := by
  obtain ⟨kv, hkv, hw⟩ := h
  have hk : KeyOK kv.1.toList := (dict_ok kv hkv).1
  rw [hasWholeWordL_eq_runs hk] at hw
  obtain ⟨r, hrm, hrc⟩ := List.any_eq_true.mp hw
  rw [Bool.and_eq_true, decide_eq_true_eq] at hrc
  obtain ⟨hcls, hlow⟩ := hrc
  have happ := applyRun_gujarati dict_ok hcls ⟨kv, hkv, hlow⟩
  have hne : applyRun ENGLISH_TO_GUJARATI r ≠ [] :=
    applyRun_ne_nil dict_ok (chunks_mem_ne_nil (chunks_splitRuns s) r hrm)
  rw [foldSubL_eq_runs dict_ok]
  cases ha : applyRun ENGLISH_TO_GUJARATI r with
  | nil => exact absurd ha hne
  | cons c₀ tail =>
    have hc₀ : c₀ ∈ applyRun ENGLISH_TO_GUJARATI r := by
      rw [ha]; exact List.mem_cons_self c₀ tail
    have hguj : isGujarati c₀ = true := by
      rw [isGujarati_true_iff]
      exact happ c₀ hc₀
    refine containsGujaratiL_of_mem ?_ hguj
    exact List.mem_flatten.mpr
      ⟨applyRun ENGLISH_TO_GUJARATI r,
        List.mem_map_of_mem (applyRun ENGLISH_TO_GUJARATI) hrm, hc₀⟩

theorem foldSubL_contains_vadhel {s : List Char}
    (h : hasWholeWordL "vadhel".toList s = true) :
    "વઢેળ".toList <:+: foldSubL ENGLISH_TO_GUJARATI s := by
  have hk : KeyOK ("vadhel" : String).toList := by
    refine ⟨by simp, ?_⟩
    decide
  rw [hasWholeWordL_eq_runs hk] at h
  obtain ⟨r, hrm, hrc⟩ := List.any_eq_true.mp h
  rw [Bool.and_eq_true, decide_eq_true_eq] at hrc
  obtain ⟨hcls, hlow⟩ := hrc
  have hdict : ENGLISH_TO_GUJARATI =
      ("vadhel", "વઢેળ") :: ENGLISH_TO_GUJARATI.tail := rfl
  have happ : applyRun ENGLISH_TO_GUJARATI r = ("વઢેળ" : String).toList := by
    rw [hdict]
    exact applyRun_head_match (hdict ▸ dict_ok) hcls hlow
  rw [foldSubL_eq_runs dict_ok]
  refine List.infix_of_mem_flatten ?_
  rw [← happ]
  exact List.mem_map_of_mem (applyRun ENGLISH_TO_GUJARATI) hrm

/-! ### The claims -/

/-- Claim C1, counterexample: the input "vadhel ક" contains the token
"vadhel" as a whole word, but because it also contains a Gujarati
character the already-resolved guard (app.py line 202) returns it
unchanged — the remote step is skipped and the output does not contain
"વઢેળ", whatever the remote would have done. -/
theorem c1_counterexample :
    hasWholeWord "vadhel" "vadhel ક" = true ∧
    containsSub "વઢેળ" (transliterate_to_gujarati remoteDown "vadhel ક") = false ∧
    containsSub "વઢેળ"
      (transliterate_to_gujarati (fun s => Except.ok (some s)) "vadhel ક") = false := by
  refine ⟨by decide, by decide, by decide⟩

/-- Claim C1 (amended): for every input without target-script characters
that contains "vadhel" as a whole word case-insensitively, if the remote
step fails (raises, times out, or returns an empty or null text) the
output contains "વઢેળ"; in particular, for the input "vadhel" alone with
the remote step failing, the output is exactly "વઢેળ". -/
theorem c1_vadhel_override :
    (∀ (x : String) (remote : Remote), RemoteAlwaysFails remote →
      containsGujaratiL x.toList = false → hasWholeWord "vadhel" x = true →
      containsSub "વઢેળ" (transliterate_to_gujarati remote x) = true) ∧
    (∀ (remote : Remote), RemoteAlwaysFails remote →
      transliterate_to_gujarati remote "vadhel" = "વઢેળ") := by
  constructor
  · intro x remote hfail hg hv
    have hx : x ≠ "" := by
      intro h
      subst h
      exact absurd hv (by decide)
    rw [transliterate_fallback hfail hx hg]
    unfold dict_fallback
    have hk : KeyOK ("vadhel" : String).toList := ⟨by simp, by decide⟩
    have hw : hasWholeWordL ("vadhel" : String).toList (pyClean x.toList) = true := by
      rw [hasWholeWordL_pyClean hk]
      exact hv
    have hinf := foldSubL_contains_vadhel hw
    have hcg : containsGujaratiL
        (foldSubL ENGLISH_TO_GUJARATI (pyClean x.toList)) = true :=
      containsGujaratiL_of_mem
        (hinf.subset (by decide : 'વ' ∈ ("વઢેળ" : String).toList))
        (by decide)
    rw [if_pos hcg, containsSub_mk]
    exact containsSubL_of_infix hinf
  · intro remote hfail
    rw [transliterate_fallback hfail (by decide) (by decide)]
    decide

/-- Witness for C1: a concrete surrounding context, with the remote step
timing out. -/
theorem c1_witness :
    containsSub "વઢેળ" (transliterate_to_gujarati remoteDown "Shri Vadhel") = true ∧
    transliterate_to_gujarati remoteDown "vadhel" = "વઢેળ" :=
  ⟨c1_vadhel_override.1 "Shri Vadhel" remoteDown remoteDown_fails
      (by decide) (by decide),
    c1_vadhel_override.2 remoteDown remoteDown_fails⟩

/-- Claim C2, counterexample: for the input "ક " the resolver's
already-resolved guard returns the input unchanged (with its trailing
space), while the pure dictionary-fallback computation strips the
whitespace and returns "ક". -/
theorem c2_counterexample :
    transliterate_to_gujarati remoteDown "ક " ≠ dictFallbackSpec "ક " := by
  decide

/-- Claim C2 (amended): for every input containing no target-script
character, if the remote step fails, the resolver's result equals the
pure dictionary-fallback computation on that input (inputs that already
contain a target-script character are returned unchanged by the guard
instead). -/
theorem c2_fallback_refinement (x : String) (remote : Remote)
    (hfail : RemoteAlwaysFails remote)
    (hg : containsGujaratiL x.toList = false) :
    transliterate_to_gujarati remote x = dictFallbackSpec x := by
  by_cases hx : x = ""
  · subst hx
    show "" = dictFallbackSpec ""
    unfold dictFallbackSpec
    rw [show pyClean ("" : String).toList = [] from rfl, foldSubL_nil_input,
      if_neg (by decide)]
  · rw [transliterate_fallback hfail hx hg]
    rfl

/-- Witness for C2: the spec's concrete scenario "Vadhel Sarthak" with the
remote step timing out; the common value contains both "વઢેળ" and
"સાર્થક". -/
theorem c2_witness :
    transliterate_to_gujarati remoteDown "Vadhel Sarthak" =
      dictFallbackSpec "Vadhel Sarthak" ∧
    dictFallbackSpec "Vadhel Sarthak" = "વઢેળ સાર્થક" :=
  ⟨c2_fallback_refinement "Vadhel Sarthak" remoteDown remoteDown_fails (by decide),
    by decide⟩

/-- Claim C3, counterexample: the guard `if not english_text` (app.py line
198) only catches the empty string; a whitespace-only input " " is truthy
in Python, reaches the fallback, and is returned verbatim, not as "". -/
theorem c3_counterexample :
    transliterate_to_gujarati remoteDown " " ≠ "" := by decide

/-- Claim C3 (amended): for the empty input the resolver returns "";
a whitespace-only input is not special-cased — with the remote step
failing it is returned unchanged (so whitespace-only input maps to
itself, not to ""). -/
theorem c3_whitespace_passthrough (x : String) (remote : Remote)
    (hfail : RemoteAlwaysFails remote)
    (hsp : ∀ c ∈ x.toList, isPySpace c = true) :
    transliterate_to_gujarati remote x = x := by
  by_cases hx : x = ""
  · subst hx; rfl
  · have hg : containsGujaratiL x.toList = false := by
      cases hcg : containsGujaratiL x.toList
      · rfl
      · obtain ⟨c, hm, hguj⟩ := List.any_eq_true.mp hcg
        rw [(nonword_of_pySpace (hsp c hm)).2] at hguj
        exact absurd hguj (by simp)
    rw [transliterate_fallback hfail hx hg]
    unfold dict_fallback
    have hlow : lowerL x.toList = x.toList := by
      unfold lowerL
      have : ∀ c ∈ x.toList, toLowerCh c = c := by
        intro c hc
        have h6 := hsp c hc
        unfold isPySpace at h6
        simp only [Bool.or_eq_true, beq_iff_eq] at h6
        rcases h6 with ((((h | h) | h) | h) | h) | h <;> subst h <;> decide
      rw [List.map_congr_left this]
      simp
    have hstrip : pyClean x.toList = [] := by
      unfold pyClean pyStrip
      rw [hlow, List.dropWhile_eq_nil_iff.mpr (fun c hc => hsp c hc)]
      rfl
    rw [hstrip, foldSubL_nil_input, if_neg (by decide)]

/-- Witness for C3: a single space with the remote step timing out. -/
theorem c3_witness : transliterate_to_gujarati remoteDown " " = " " :=
  c3_whitespace_passthrough " " remoteDown remoteDown_fails (by decide)

/-- Claim C4: any input containing a character of the Gujarati block
U+0A80-U+0AFF is returned unchanged by the already-resolved guard,
whatever the remote step would do; inputs composed entirely of
target-script characters are in particular fixed points. -/
theorem c4_already_gujarati (x : String) (remote : Remote)
    (hg : containsGujaratiL x.toList = true) :
    transliterate_to_gujarati remote x = x := by
  refine transliterate_guard remote (ne_empty_of_toList_ne_nil ?_) hg
  intro h
  rw [h] at hg
  exact absurd hg (by decide)

/-- Witness for C4: the fully Gujarati input "વઢેળ". -/
theorem c4_witness : transliterate_to_gujarati remoteDown "વઢેળ" = "વઢેળ" :=
  c4_already_gujarati "વઢેળ" remoteDown (by decide)

/-- Claim C5: if the remote step fails and no dictionary key has a
whole-word match in the lowercased, stripped input, the resolver returns
the original input verbatim — original casing and whitespace included. -/
theorem c5_no_match_passthrough (x : String) (remote : Remote)
    (hfail : RemoteAlwaysFails remote)
    (hnm : ∀ kv ∈ ENGLISH_TO_GUJARATI, hasWholeWord kv.1 (pyCleanStr x) = false) :
    transliterate_to_gujarati remote x = x := by
  by_cases hx : x = ""
  · subst hx; rfl
  · by_cases hg : containsGujaratiL x.toList = true
    · exact transliterate_guard remote hx hg
    · have hg' : containsGujaratiL x.toList = false := by
        cases hcg : containsGujaratiL x.toList
        · rfl
        · exact absurd hcg hg
      rw [transliterate_fallback hfail hx hg']
      unfold dict_fallback
      rw [show foldSubL ENGLISH_TO_GUJARATI (pyClean x.toList) = pyClean x.toList
          from foldSubL_id_of_no_match (fun kv hkv => hnm kv hkv),
        if_neg (by rw [containsGujaratiL_pyClean_false hg']; simp)]

/-- Witness for C5: the spec's concrete scenario "Random Unknown Name"
with the remote step timing out. -/
theorem c5_witness :
    transliterate_to_gujarati remoteDown "Random Unknown Name" =
      "Random Unknown Name" :=
  c5_no_match_passthrough "Random Unknown Name" remoteDown remoteDown_fails
    (by decide)

/-- Claim C6: for every input and every behaviour of the remote call
(success, raised exception, timeout, empty or null result) the resolver
returns a string normally: with exception propagation made explicit
(`transliterateE`), the result is always `Except.ok` of the value the
resolver computes — no failure of the `try` block escapes the handler. -/
theorem c6_no_exception (remote : Remote) (x : String) :
    transliterateE remote x = Except.ok (transliterate_to_gujarati remote x) := by
  unfold transliterateE transliterate_to_gujarati tryTranslate
  by_cases hx : x = ""
  · rw [if_pos hx, if_pos hx]
  · rw [if_neg hx, if_neg hx]
    by_cases hg : containsGujaratiL x.toList = true
    · rw [if_pos hg, if_pos hg]
    · rw [if_neg hg, if_neg hg]
      generalize dict_fallback x = D
      cases hr : remote (maskVadhel x) with
      | ok o =>
        cases o with
        | some t =>
          by_cases ht : t = ""
          · subst ht
            rfl
          · show (match (if (t ≠ "") then (pure (some (if hasWholeWord "vadhel" x
                then correctVadhel t else t)) : Except RemoteFailure (Option String))
                else pure none) with
              | Except.ok (some out) => Except.ok out
              | Except.ok none => Except.ok D
              | Except.error _ => Except.ok D) =
              Except.ok (if (t ≠ "") then (if hasWholeWord "vadhel" x
                then correctVadhel t else t) else D)
            rw [if_pos ht, if_pos ht]
            rfl
        | none => rfl
      | error e => rfl

/-- Claim C7: no dictionary key has a whole-word match inside any
dictionary value (the Gujarati text produced by a replacement), and the
substitution loop gives the same result for every iteration order over
the dictionary's entries. -/
theorem c7_fallback_order_independent :
    (∀ kv ∈ ENGLISH_TO_GUJARATI, ∀ kv' ∈ ENGLISH_TO_GUJARATI,
      hasWholeWord kv.1 kv'.2 = false) ∧
    (∀ (l : List (String × String)), l.Perm ENGLISH_TO_GUJARATI →
      ∀ s, foldSub l s = foldSub ENGLISH_TO_GUJARATI s) := by
  constructor
  · intro kv hkv kv' hkv'
    exact hasWordAux_false_of_high (dict_ok kv hkv).1 kv'.2.toList
      (valOK_high (dict_ok kv' hkv').2) false
  · intro l hp s
    unfold foldSub
    have hl : DictOK l := fun kv hkv => dict_ok kv (hp.subset hkv)
    have hnd : (l.map Prod.fst).Nodup :=
      ((hp.map Prod.fst).nodup_iff).mpr dict_keys_nodup
    have : foldSubL l s.toList = foldSubL ENGLISH_TO_GUJARATI s.toList := by
      rw [foldSubL_eq_runs hl, foldSubL_eq_runs dict_ok]
      exact congrArg List.flatten
        (List.map_congr_left (fun r _ => applyRun_perm hl hnd hp r))
    rw [this]

/-- Witness for C7: iterating the dictionary in reverse order gives the
same fallback result on "vadhel patel". -/
theorem c7_witness :
    foldSub ENGLISH_TO_GUJARATI.reverse "vadhel patel" =
      foldSub ENGLISH_TO_GUJARATI "vadhel patel" ∧
    foldSub ENGLISH_TO_GUJARATI "vadhel patel" = "વઢેળ પટેલ" :=
  ⟨c7_fallback_order_independent.2 ENGLISH_TO_GUJARATI.reverse
      (List.reverse_perm ENGLISH_TO_GUJARATI) "vadhel patel",
    by decide⟩

/-- Claim C9: with the remote step failing, the resolver is idempotent:
its output is empty, already contains a Gujarati character (so the guard
returns it unchanged), or equals the input, and in each case resolving a
second time changes nothing. -/
theorem c9_idempotent (x : String) (remote : Remote)
    (hfail : RemoteAlwaysFails remote) :
    transliterate_to_gujarati remote (transliterate_to_gujarati remote x) =
      transliterate_to_gujarati remote x := by
  by_cases hx : x = ""
  · subst hx; rfl
  · by_cases hg : containsGujaratiL x.toList = true
    · rw [transliterate_guard remote hx hg]
      exact transliterate_guard remote hx hg
    · have hg' : containsGujaratiL x.toList = false := by
        cases hcg : containsGujaratiL x.toList
        · rfl
        · exact absurd hcg hg
      have hfb := transliterate_fallback hfail hx hg'
      rw [hfb]
      by_cases hcg : containsGujaratiL
          (foldSubL ENGLISH_TO_GUJARATI (pyClean x.toList)) = true
      · have hdf : dict_fallback x =
            ⟨foldSubL ENGLISH_TO_GUJARATI (pyClean x.toList)⟩ := by
          unfold dict_fallback
          rw [if_pos hcg]
        rw [hdf]
        have hcg2 : containsGujaratiL (String.toList
            (⟨foldSubL ENGLISH_TO_GUJARATI (pyClean x.toList)⟩ : String)) = true := by
          rw [toList_mk]
          exact hcg
        refine transliterate_guard remote (ne_empty_of_toList_ne_nil ?_) hcg2
        rw [toList_mk]
        intro h1
        rw [h1] at hcg
        exact absurd hcg (by decide)
      · have hdf : dict_fallback x = x := by
          unfold dict_fallback
          rw [if_neg hcg]
        rw [hdf, hfb, hdf]

/-- Witness for C9: resolving "Patel" twice with the remote step timing
out. -/
theorem c9_witness :
    transliterate_to_gujarati remoteDown
        (transliterate_to_gujarati remoteDown "Patel") =
      transliterate_to_gujarati remoteDown "Patel" :=
  c9_idempotent "Patel" remoteDown remoteDown_fails

/-- Claim C10: in the dictionary-fallback path (remote failing, input not
already in the target script), when at least one dictionary key has a
whole-word match in the cleaned input, the resolver returns the
lowercased and stripped input with matched words replaced — unmatched
words lose their original casing. -/
theorem c10_fallback_lowercases (x : String) (remote : Remote)
    (hfail : RemoteAlwaysFails remote)
    (hg : containsGujaratiL x.toList = false)
    (hm : ∃ kv ∈ ENGLISH_TO_GUJARATI, hasWholeWord kv.1 (pyCleanStr x) = true) :
    transliterate_to_gujarati remote x = foldSub ENGLISH_TO_GUJARATI (pyCleanStr x) := by
  have hcg : containsGujaratiL
      (foldSubL ENGLISH_TO_GUJARATI (pyClean x.toList)) = true :=
    foldSubL_gujarati_of_match
      (by obtain ⟨kv, hkv, hw⟩ := hm; exact ⟨kv, hkv, hw⟩)
  have hx : x ≠ "" := by
    intro h
    subst h
    obtain ⟨kv, hkv, hw⟩ := hm
    have h0 : hasWholeWord kv.1 (pyCleanStr "") = false := rfl
    rw [h0] at hw
    exact absurd hw (by simp)
  rw [transliterate_fallback hfail hx hg]
  unfold dict_fallback
  rw [if_pos hcg]
  unfold foldSub pyCleanStr
  exact congrArg (fun l => (⟨foldSubL ENGLISH_TO_GUJARATI l⟩ : String))
    (toList_mk (pyClean x.toList)).symm

/-- Witness for C10: "Unknown Patel" with the remote step timing out
resolves to "unknown પટેલ", not "Unknown પટેલ". -/
theorem c10_witness :
    transliterate_to_gujarati remoteDown "Unknown Patel" = "unknown પટેલ" ∧
    ("unknown પટેલ" : String) ≠ "Unknown પટેલ" :=
  ⟨(c10_fallback_lowercases "Unknown Patel" remoteDown remoteDown_fails
      (by decide) ⟨("patel", "પટેલ"), by decide, by decide⟩).trans (by decide),
    by decide⟩

end Invitation
